import Mathlib

/-!
# Game engine: first correct answer wins

A shallow embedding of `game_engine/game_engine.go` (the submission evaluation
engine) and of the request validation in `api_server/server.go`.

* Atomic `uint64` counters are natural numbers updated modulo `2 ^ 64`.
* `int64` identifiers are integers; they are only stored and compared.
* Go channels are records holding capacity, buffered values, the closed flag
  and the history of operations performed on them.  A send on a closed
  channel, a close of a closed channel (both panics in Go) and a send on a
  full buffer (which would block the evaluator) are reported as faults.
* `sync.Once` is a Boolean latch.
* `log.Printf` appends the printed identifier to the `logged` field.
-/

namespace Engine

/-- The modulus of `uint64` arithmetic. -/
def u64 : Nat := 2 ^ 64

/-- An `atomic.Uint64.Add(d)` result: addition wrapping at `2 ^ 64`. -/
def addU64 (a d : Nat) : Nat := (a + d) % u64

/-- The Go struct `Submission`. -/
structure Submission where
  UserID : Int
  Correct : Bool
deriving DecidableEq, Repr

/-- The Go struct `Stats`. -/
structure Stats where
  Total : Nat
  Correct : Nat
  Incorrect : Nat
  WinnerID : Int
deriving DecidableEq, Repr

/-- An operation performed on a channel. -/
inductive ChanOp (α : Type) where
  | send (v : α)
  | close
deriving DecidableEq, Repr

/-- The ways a channel operation of the evaluator can go wrong. -/
inductive Fault where
  | sendOnClosed
  | closeOfClosed
  | sendBlocked
deriving DecidableEq, Repr

deriving instance DecidableEq for Except

/-- A buffered Go channel as seen by its sender. -/
structure Chan (α : Type) where
  cap : Nat
  buf : List α
  closed : Bool
  hist : List (ChanOp α)
deriving DecidableEq, Repr

/-- The Go builtin `make(chan T, cap)`. -/
def Chan.make {α : Type} (cap : Nat) : Chan α :=
  { cap := cap, buf := [], closed := false, hist := [] }

/-- The statement `ch <- v` executed with no receiver running. -/
def Chan.send {α : Type} (c : Chan α) (v : α) : Except Fault (Chan α) :=
  if c.closed then .error .sendOnClosed
  else if c.buf.length < c.cap then
    .ok { c with buf := c.buf ++ [v], hist := c.hist ++ [.send v] }
  else .error .sendBlocked

/-- The Go builtin `close(ch)`. -/
def Chan.close {α : Type} (c : Chan α) : Except Fault (Chan α) :=
  if c.closed then .error .closeOfClosed
  else .ok { c with closed := true, hist := c.hist ++ [.close] }

/-- The values ever sent on a channel, oldest first. -/
def Chan.sent {α : Type} (c : Chan α) : List α :=
  c.hist.filterMap fun op => match op with
    | .send v => some v
    | .close => none

/-- The number of `close` operations ever performed on a channel. -/
def Chan.closes {α : Type} (c : Chan α) : Nat :=
  c.hist.countP fun op => match op with
    | .send _ => false
    | .close => true

/-- The Go struct `GameEngine`, with the log output as the extra field `logged`. -/
structure GameEngine where
  winnerID : Int
  announceDo : Bool
  total : Nat
  correct : Nat
  incorrect : Nat
  subCh : Chan Submission
  done : Chan Unit
  winnerOnce : Bool
  winnerCh : Chan Int
  logged : List Int
deriving DecidableEq, Repr

/-- The constructor `New(buffer)`; `buffer` is a natural number because `make`
panics on a negative size. -/
def New (buffer : Nat) : GameEngine :=
  { winnerID := 0
    announceDo := false
    total := 0
    correct := 0
    incorrect := 0
    subCh := Chan.make buffer
    done := Chan.make 0
    winnerOnce := false
    winnerCh := Chan.make 1
    logged := [] }

/-- The atomic step `g.total.Add(1)`. -/
def GameEngine.addTotal (g : GameEngine) : GameEngine :=
  { g with total := addU64 g.total 1 }

/-- The atomic step `g.correct.Add(1)`. -/
def GameEngine.addCorrect (g : GameEngine) : GameEngine :=
  { g with correct := addU64 g.correct 1 }

/-- The atomic step `g.incorrect.Add(1)`. -/
def GameEngine.addIncorrect (g : GameEngine) : GameEngine :=
  { g with incorrect := addU64 g.incorrect 1 }

/-- The atomic step `g.winnerID.CompareAndSwap(old, new)`: whether it swapped,
and the engine afterwards. -/
def GameEngine.casWinner (g : GameEngine) (old new : Int) : Bool × GameEngine :=
  if g.winnerID = old then (true, { g with winnerID := new }) else (false, g)

/-- The call `g.announceDo.Do(func() { log.Printf(..., id) })`. -/
def GameEngine.announce (g : GameEngine) (id : Int) : GameEngine :=
  if g.announceDo then g
  else { g with announceDo := true, logged := g.logged ++ [id] }

/-- The call `g.winnerOnce.Do(func() { g.winnerCh <- id; close(g.winnerCh) })`. -/
def GameEngine.publish (g : GameEngine) (id : Int) : Except Fault GameEngine :=
  if g.winnerOnce then .ok g
  else
    match g.winnerCh.send id with
    | .error e => .error e
    | .ok c1 =>
      match c1.close with
      | .error e => .error e
      | .ok c2 => .ok { g with winnerOnce := true, winnerCh := c2 }

/-- The method `GameEngine.eval`. -/
def eval (g : GameEngine) (s : Submission) : Except Fault GameEngine :=
  let g1 := g.addTotal
  if s.Correct then
    let g2 := g1.addCorrect
    if g2.winnerID = 0 then
      match g2.casWinner 0 s.UserID with
      | (true, g3) => (g3.announce s.UserID).publish s.UserID
      | (false, g3) => .ok g3
    else .ok g2
  else .ok g1.addIncorrect

/-- The evaluation loop of `Start` applied to the submissions taken from the
queue, in queue order. -/
def evalAll (g : GameEngine) : List Submission → Except Fault GameEngine
  | [] => .ok g
  | s :: rest =>
    match eval g s with
    | .error e => .error e
    | .ok g1 => evalAll g1 rest

/-- The method `GameEngine.Winner`. -/
def GameEngine.Winner (g : GameEngine) : Int × Bool :=
  let id := g.winnerID
  (id, id != 0)

/-- The method `GameEngine.WinnerEvents`. -/
def GameEngine.WinnerEvents (g : GameEngine) : Chan Int := g.winnerCh

/-- The method `GameEngine.StatsSnapshot`. -/
def GameEngine.StatsSnapshot (g : GameEngine) : Stats :=
  { Total := g.total
    Correct := g.correct
    Incorrect := g.incorrect
    WinnerID := g.winnerID }

/-! ## Several evaluators running `eval` concurrently

Each evaluator runs `eval` on its own submission; one step of the system is
one atomic operation of one evaluator (Go atomics are sequentially
consistent, and `sync.Once.Do` is atomic for its callers). -/

/-- The program points of `eval`: the atomic operation an evaluator performs next. -/
inductive PC where
  /-- Before `g.total.Add(1)`. -/
  | addTotal
  /-- Before the test of `s.Correct` and the `g.correct.Add(1)` or
  `g.incorrect.Add(1)` it selects. -/
  | branch
  /-- Before `g.winnerID.Load() == 0`. -/
  | load
  /-- Before `g.winnerID.CompareAndSwap(0, s.UserID)`. -/
  | cas
  /-- Before `g.announceDo.Do(...)`. -/
  | announce
  /-- Before `g.winnerOnce.Do(...)`. -/
  | publish
  /-- After the return from `eval`. -/
  | done
deriving DecidableEq, Repr

/-- One evaluator: its submission, its program point, and whether its
`CompareAndSwap` returned true. -/
structure Evaluator where
  s : Submission
  pc : PC
  swapped : Bool
deriving DecidableEq, Repr

/-- The shared engine together with the evaluators working on it. -/
structure Config where
  g : GameEngine
  evals : List Evaluator
deriving DecidableEq, Repr

/-- Every evaluator is about to start `eval` on its submission. -/
def Config.init (g : GameEngine) (subs : List Submission) : Config :=
  { g := g, evals := subs.map fun s => { s := s, pc := .addTotal, swapped := false } }

/-- The next atomic operation of `eval` for an evaluator on the engine `g`:
the engine and the evaluator afterwards. An evaluator that has returned
does nothing. -/
def Evaluator.step (e : Evaluator) (g : GameEngine) : Except Fault (GameEngine × Evaluator) :=
  match e.pc with
  | .addTotal => .ok (g.addTotal, { e with pc := .branch })
  | .branch =>
    if e.s.Correct then .ok (g.addCorrect, { e with pc := .load })
    else .ok (g.addIncorrect, { e with pc := .done })
  | .load =>
    if g.winnerID = 0 then .ok (g, { e with pc := .cas })
    else .ok (g, { e with pc := .done })
  | .cas =>
    match g.casWinner 0 e.s.UserID with
    | (true, g1) => .ok (g1, { e with pc := .announce, swapped := true })
    | (false, g1) => .ok (g1, { e with pc := .done })
  | .announce => .ok (g.announce e.s.UserID, { e with pc := .publish })
  | .publish =>
    match g.publish e.s.UserID with
    | .error f => .error f
    | .ok g1 => .ok (g1, { e with pc := .done })
  | .done => .ok (g, e)

/-- Evaluator `i` of the configuration performs its next atomic operation; an
absent evaluator does nothing. -/
def step (c : Config) (i : Nat) : Except Fault Config :=
  match c.evals[i]? with
  | none => .ok c
  | some e =>
    match e.step c.g with
    | .error f => .error f
    | .ok (g1, e1) => .ok { g := g1, evals := c.evals.set i e1 }

/-- The system runs under a schedule: the list of evaluators chosen, one
atomic operation each, in order. -/
def run (c : Config) : List Nat → Except Fault Config
  | [] => .ok c
  | i :: rest =>
    match step c i with
    | .error f => .error f
    | .ok c1 => run c1 rest

/-- The number of evaluators whose `CompareAndSwap` succeeded. -/
def Config.swaps (c : Config) : Nat := c.evals.countP fun e => e.swapped

/-- Whether every evaluator has returned from `eval`. -/
def Config.finished (c : Config) : Bool := c.evals.all fun e => e.pc = .done

/-- The schedule that runs evaluator 0 to completion, then evaluator 1, and
so on up to evaluator `n - 1`. -/
def serial (n : Nat) : List Nat :=
  (List.range n).flatMap fun i => List.replicate 6 i

/-- The first correct submission of a sequence, if any. -/
def firstCorrect (subs : List Submission) : Option Submission :=
  subs.find? fun s => s.Correct

/-- The first submission of a sequence that is correct and has a non-zero
identifier, if any. -/
def firstWinner (subs : List Submission) : Option Submission :=
  subs.find? fun s => s.Correct && decide (s.UserID ≠ 0)

/-- The engine state described in closed form as a function of the sequence
of submissions evaluated so far. -/
def reached (buffer : Nat) (subs : List Submission) : GameEngine :=
  { winnerID := match firstWinner subs with
      | some w => w.UserID
      | none => 0
    announceDo := (firstCorrect subs).isSome
    total := subs.length % u64
    correct := subs.countP (fun s => s.Correct) % u64
    incorrect := subs.countP (fun s => !s.Correct) % u64
    subCh := Chan.make buffer
    done := Chan.make 0
    winnerOnce := (firstCorrect subs).isSome
    winnerCh := match firstCorrect subs with
      | some f => { cap := 1, buf := [f.UserID], closed := true,
                    hist := [.send f.UserID, .close] }
      | none => Chan.make 1
    logged := match firstCorrect subs with
      | some f => [f.UserID]
      | none => [] }

/-! ## Invariants of concurrent evaluation: definitions -/

/-- The engine `g1` is a later state of `g`: a set winner, and set latches, stay. -/
def Ext (g g1 : GameEngine) : Prop :=
  (g.winnerID ≠ 0 → g1.winnerID = g.winnerID) ∧
  (g.announceDo = true → g1.announceDo = true) ∧
  (g.winnerOnce = true → g1.winnerOnce = true)

/-- The log and the winner event channel agree with the latches and the winner. -/
def GOK (g : GameEngine) : Prop :=
  (if g.announceDo = true then g.winnerID ≠ 0 ∧ g.logged = [g.winnerID] else g.logged = []) ∧
  (if g.winnerOnce = true then
      g.winnerID ≠ 0 ∧
      g.winnerCh = { cap := 1, buf := [g.winnerID], closed := true,
                     hist := [.send g.winnerID, .close] }
    else g.winnerCh = Chan.make 1)

/-- What the program point of an evaluator says about it and about the engine. -/
def EvOK (g : GameEngine) (e : Evaluator) : Prop :=
  (e.s.Correct = true → e.s.UserID ≠ 0) ∧
  match e.pc with
  | .addTotal => e.swapped = false
  | .branch => e.swapped = false
  | .load => e.swapped = false ∧ e.s.Correct = true
  | .cas => e.swapped = false ∧ e.s.Correct = true
  | .announce => e.swapped = true ∧ e.s.Correct = true ∧ g.winnerID = e.s.UserID
  | .publish =>
    e.swapped = true ∧ e.s.Correct = true ∧ g.winnerID = e.s.UserID ∧ g.announceDo = true
  | .done =>
    (e.s.Correct = true → g.winnerID ≠ 0) ∧
    (e.swapped = true →
      e.s.Correct = true ∧ g.winnerID = e.s.UserID ∧
      g.announceDo = true ∧ g.winnerOnce = true)

/-- The invariant of the configurations reachable from a fresh engine when
every correct submission has a non-zero identifier. -/
structure Inv (c : Config) : Prop where
  gok : GOK c.g
  evok : ∀ e ∈ c.evals, EvOK c.g e
  count : c.swaps + (if c.g.winnerID = 0 then 1 else 0) = 1

end Engine

/-! ## The request layer (`api_server/server.go`) -/

namespace ApiServer

/-- The Go struct `submitReq`. -/
structure submitReq where
  UserID : Int
  Correct : Bool
deriving DecidableEq, Repr

/-- The function `validate`: `none` is the nil error, `some msg` the error
with that message. -/
def validate (req : submitReq) : Option String :=
  if req.UserID ≤ 0 then some "user_id must be positive" else none

/-- What `handleSubmit` reads from the HTTP request: the method, and the
result of decoding the body as JSON into a `submitReq` (`none` when the
decoder reports an error). -/
structure Request where
  Method : String
  decoded : Option submitReq
deriving DecidableEq, Repr

/-- What `handleSubmit` does: the HTTP status it writes and the submission it
passes to `GameEngine.Submit`, if any. -/
structure Outcome where
  status : Nat
  submitted : Option Engine.Submission
deriving DecidableEq, Repr

/-- The method `Server.handleSubmit`. -/
def handleSubmit (r : Request) : Outcome :=
  if r.Method ≠ "POST" then { status := 405, submitted := none }
  else
    match r.decoded with
    | none => { status := 400, submitted := none }
    | some req =>
      match validate req with
      | some _ => { status := 400, submitted := none }
      | none =>
        { status := 202
          submitted := some { UserID := req.UserID, Correct := req.Correct } }

end ApiServer

/-! # Theorems -/

namespace Engine

/-! ## Sequential evaluation in closed form -/

theorem evalAll_snoc (g : GameEngine) (xs : List Submission) (s : Submission) :
    evalAll g (xs ++ [s]) =
      match evalAll g xs with
      | .error e => .error e
      | .ok g1 => eval g1 s := by
  induction xs generalizing g with
  | nil => simp only [List.nil_append, evalAll]; cases eval g s <;> rfl
  | cons x xs ih =>
    simp only [List.cons_append, evalAll]
    cases eval g x with
    | error e => rfl
    | ok g1 => exact ih g1

theorem firstCorrect_snoc (xs : List Submission) (s : Submission) :
    firstCorrect (xs ++ [s]) = (firstCorrect xs).or (if s.Correct then some s else none) := by
  simp [firstCorrect, List.find?_append, List.find?_cons]
  cases s.Correct <;> rfl

theorem firstWinner_snoc (xs : List Submission) (s : Submission) :
    firstWinner (xs ++ [s]) =
      (firstWinner xs).or (if s.Correct ∧ s.UserID ≠ 0 then some s else none) := by
  simp [firstWinner, List.find?_append, List.find?_cons]
  cases s.Correct <;> by_cases h : s.UserID = 0 <;> simp [h]

theorem firstWinner_eq_none_of_firstCorrect (xs : List Submission)
    (h : firstCorrect xs = none) : firstWinner xs = none := by
  simp only [firstCorrect, firstWinner, List.find?_eq_none] at h ⊢
  intro x hx
  simp [h x hx]

theorem firstWinner_ne_zero (xs : List Submission) (w : Submission)
    (h : firstWinner xs = some w) : w.Correct = true ∧ w.UserID ≠ 0 := by
  have := List.find?_some h
  simpa using this

theorem eval_reached (buffer : Nat) (xs : List Submission) (s : Submission) :
    eval (reached buffer xs) s = .ok (reached buffer (xs ++ [s])) := by
  have hcw := firstWinner_eq_none_of_firstCorrect xs
  have hnz := firstWinner_ne_zero xs
  unfold reached
  rw [firstCorrect_snoc, firstWinner_snoc]
  generalize firstCorrect xs = fc at hcw ⊢
  generalize firstWinner xs = fw at hcw hnz ⊢
  obtain ⟨id, c⟩ := s
  cases c with
  | false =>
    cases fc <;> cases fw <;>
    simp [eval, GameEngine.addTotal, GameEngine.addIncorrect, addU64, List.countP_append]
  | true =>
    cases fc with
    | none =>
      rw [hcw rfl]
      by_cases hid : id = 0 <;>
      simp [eval, GameEngine.addTotal, GameEngine.addCorrect, addU64, List.countP_append,
        GameEngine.casWinner, GameEngine.announce, GameEngine.publish, Chan.send, Chan.close,
        Chan.make, hid]
    | some f =>
      cases fw with
      | none =>
        by_cases hid : id = 0 <;>
        simp [eval, GameEngine.addTotal, GameEngine.addCorrect, addU64, List.countP_append,
          GameEngine.casWinner, GameEngine.announce, GameEngine.publish, Chan.send, Chan.close,
          Chan.make, hid]
      | some w =>
        have hw : w.UserID ≠ 0 := (hnz w rfl).2
        simp [eval, GameEngine.addTotal, GameEngine.addCorrect, addU64, List.countP_append, hw]

theorem evalAll_New (buffer : Nat) (subs : List Submission) :
    evalAll (New buffer) subs = .ok (reached buffer subs) := by
  induction subs using List.reverseRecOn with
  | nil => rfl
  | append_singleton xs s ih => rw [evalAll_snoc, ih]; exact eval_reached buffer xs s

theorem countP_split (subs : List Submission) :
    subs.length = subs.countP (fun s => s.Correct) + subs.countP (fun s => !s.Correct) := by
  induction subs with
  | nil => rfl
  | cons x xs ih =>
    cases hx : x.Correct <;> simp [List.countP_cons, hx] <;> omega

theorem firstWinner_isSome_of_mem (subs : List Submission) (s : Submission)
    (hs : s ∈ subs) (hc : s.Correct = true) (hz : s.UserID ≠ 0) :
    ∃ w, firstWinner subs = some w := by
  cases h : firstWinner subs with
  | some w => exact ⟨w, rfl⟩
  | none =>
    simp only [firstWinner, List.find?_eq_none] at h
    have := h s hs
    simp [hc, hz] at this

theorem find?_first (p : Submission → Bool) (pre : List Submission) (f : Submission)
    (post : List Submission) (hpre : ∀ s ∈ pre, p s = false) (hf : p f = true) :
    (pre ++ f :: post).find? p = some f := by
  induction pre with
  | nil => simp [List.find?_cons, hf]
  | cons x xs ih =>
    have hx : p x = false := hpre x (List.mem_cons_self _ _)
    simp only [List.cons_append, List.find?_cons, hx]
    exact ih fun s hs => hpre s (List.mem_cons_of_mem _ hs)

theorem winner_stable (g : GameEngine) (s : Submission) (h : g.winnerID ≠ 0) :
    ∃ g1, eval g s = .ok g1 ∧ g1.winnerID = g.winnerID := by
  cases hc : s.Correct <;>
  simp [eval, hc, GameEngine.addTotal, GameEngine.addCorrect, GameEngine.addIncorrect, h]

theorem winner_stable_all (g : GameEngine) (subs : List Submission) (h : g.winnerID ≠ 0) :
    ∃ g1, evalAll g subs = .ok g1 ∧ g1.winnerID = g.winnerID := by
  induction subs generalizing g with
  | nil => exact ⟨g, rfl, rfl⟩
  | cons x xs ih =>
    obtain ⟨g1, h1, e1⟩ := winner_stable g x h
    obtain ⟨g2, h2, e2⟩ := ih g1 (e1 ▸ h)
    exact ⟨g2, by simp [evalAll, h1, h2], e2.trans e1⟩

theorem evalAll_append (g : GameEngine) (xs ys : List Submission) :
    evalAll g (xs ++ ys) =
      match evalAll g xs with
      | .error e => .error e
      | .ok g1 => evalAll g1 ys := by
  induction xs generalizing g with
  | nil => simp only [List.nil_append, evalAll]
  | cons x xs ih =>
    simp only [List.cons_append, evalAll]
    cases eval g x with
    | error e => rfl
    | ok g1 => exact ih g1

theorem firstCorrect_append_of_some (xs ys : List Submission) (f : Submission)
    (h : firstCorrect xs = some f) : firstCorrect (xs ++ ys) = some f := by
  simp only [firstCorrect] at h ⊢
  simp [List.find?_append, h]

theorem firstWinner_of_firstCorrect (subs : List Submission) (f : Submission)
    (h : firstCorrect subs = some f) (hz : f.UserID ≠ 0) : firstWinner subs = some f := by
  induction subs with
  | nil => simp [firstCorrect] at h
  | cons x xs ih =>
    simp only [firstCorrect, firstWinner, List.find?_cons] at h ih ⊢
    cases hx : x.Correct with
    | false => simp only [hx, Bool.false_and] at h ⊢; exact ih h
    | true =>
      simp only [hx] at h
      obtain rfl : x = f := by simpa using h
      simp [hz]

/-! ## Invariants of concurrent evaluation: lemmas -/

theorem countP_set {α : Type} (p : α → Bool) (l : List α) (i : Nat) (a e : α)
    (h : l[i]? = some e) :
    (l.set i a).countP p + (if p e then 1 else 0) = l.countP p + (if p a then 1 else 0) := by
  induction l generalizing i with
  | nil => simp at h
  | cons x xs ih =>
    cases i with
    | zero =>
      obtain rfl : x = e := by simpa using h
      simp only [List.set_cons_zero, List.countP_cons]
      omega
    | succ n =>
      have h2 : xs[n]? = some e := by simpa using h
      have := ih n h2
      simp only [List.set_cons_succ, List.countP_cons]
      omega

theorem EvOK.frame {g g1 : GameEngine} {e : Evaluator} (h : EvOK g e) (hx : Ext g g1) :
    EvOK g1 e := by
  obtain ⟨hz, hpc⟩ := h
  obtain ⟨hw, ha, ho⟩ := hx
  refine ⟨hz, ?_⟩
  cases hp : e.pc <;> simp only [hp] at hpc ⊢
  · exact hpc
  · exact hpc
  · exact hpc
  · exact hpc
  · obtain ⟨h1, h2, h3⟩ := hpc
    exact ⟨h1, h2, by rw [hw (h3 ▸ hz h2)]; exact h3⟩
  · obtain ⟨h1, h2, h3, h4⟩ := hpc
    exact ⟨h1, h2, by rw [hw (h3 ▸ hz h2)]; exact h3, ha h4⟩
  · obtain ⟨h1, h2⟩ := hpc
    refine ⟨fun hc => by rw [hw (h1 hc)]; exact h1 hc, fun hs => ?_⟩
    obtain ⟨h3, h4, h5, h6⟩ := h2 hs
    exact ⟨h3, by rw [hw (h1 h3)]; exact h4, ha h5, ho h6⟩

theorem Inv.set {c : Config} (hc : Inv c) {i : Nat} {e e1 : Evaluator} {g1 : GameEngine}
    (hi : c.evals[i]? = some e) (hx : Ext c.g g1) (hg : GOK g1) (he : EvOK g1 e1)
    (hn : (if e1.swapped = true then 1 else 0) + (if g1.winnerID = 0 then 1 else 0) =
      (if e.swapped = true then 1 else 0) + (if c.g.winnerID = 0 then 1 else 0)) :
    Inv { g := g1, evals := c.evals.set i e1 } := by
  refine ⟨hg, ?_, ?_⟩
  · intro x hxm
    rcases List.mem_or_eq_of_mem_set hxm with h | h
    · exact (hc.evok x h).frame hx
    · exact h ▸ he
  · have h1 := countP_set (fun e : Evaluator => e.swapped) c.evals i e1 e hi
    have h2 := hc.count
    beta_reduce at h1
    simp only [Config.swaps] at h2 ⊢
    split_ifs at h1 h2 hn ⊢ <;> omega

theorem map_s_set (l : List Evaluator) (i : Nat) (e e1 : Evaluator)
    (h : l[i]? = some e) (hs : e1.s = e.s) :
    (l.set i e1).map (fun x => x.s) = l.map (fun x => x.s) := by
  induction l generalizing i with
  | nil => rfl
  | cons x xs ih =>
    cases i with
    | zero =>
      obtain rfl : x = e := by simpa using h
      simp [hs]
    | succ n =>
      have h2 : xs[n]? = some e := by simpa using h
      simp [ih n h2]

theorem Ext.refl (g : GameEngine) : Ext g g := ⟨fun _ => rfl, id, id⟩

theorem Evaluator.step_spec (g : GameEngine) (e : Evaluator) (hgok : GOK g)
    (hev : EvOK g e) :
    ∃ g1 e1, e.step g = .ok (g1, e1) ∧ e1.s = e.s ∧ Ext g g1 ∧ GOK g1 ∧ EvOK g1 e1 ∧
      (if e1.swapped = true then 1 else 0) + (if g1.winnerID = 0 then 1 else 0) =
        (if e.swapped = true then 1 else 0) + (if g.winnerID = 0 then 1 else 0) := by
  obtain ⟨hz, hpc⟩ := hev
  unfold Evaluator.step
  cases hp : e.pc <;> simp only [hp] at hpc ⊢
  · -- addTotal
    exact ⟨_, _, rfl, rfl, Ext.refl g, hgok, ⟨hz, hpc⟩, by simp [hpc, GameEngine.addTotal]⟩
  · -- branch
    by_cases hcorr : e.s.Correct = true
    · simp only [hcorr, if_true]
      exact ⟨_, _, rfl, rfl, Ext.refl g, hgok, ⟨hz, by simp [hpc, hcorr]⟩,
        by simp [hpc, GameEngine.addCorrect]⟩
    · simp only [hcorr, if_false]
      exact ⟨_, _, rfl, rfl, Ext.refl g, hgok, ⟨hz, by simp [hpc, hcorr]⟩,
        by simp [hpc, GameEngine.addIncorrect]⟩
  · -- load
    by_cases hw : g.winnerID = 0
    · simp only [hw, if_true]
      exact ⟨_, _, rfl, rfl, Ext.refl g, hgok, ⟨hz, by simp [hpc]⟩, by simp [hpc, hw]⟩
    · simp only [hw, if_false]
      exact ⟨_, _, rfl, rfl, Ext.refl g, hgok,
        ⟨hz, fun _ => hw, fun h => absurd h (by simp [hpc.1])⟩, by simp [hw]⟩
  · -- cas
    have hid : e.s.UserID ≠ 0 := hz hpc.2
    by_cases hw : g.winnerID = 0
    · simp only [GameEngine.casWinner, hw, if_true]
      refine ⟨_, _, rfl, rfl, ⟨fun h => absurd hw h, id, id⟩, ?_, ⟨hz, by simp [hpc]⟩,
        by simp [hpc, hid, hw]⟩
      obtain ⟨ha, ho⟩ := hgok
      constructor
      · by_cases hb : g.announceDo = true
        · rw [if_pos hb] at ha; exact absurd hw ha.1
        · rw [if_neg hb] at ha; simpa [hb] using ha
      · by_cases hb : g.winnerOnce = true
        · rw [if_pos hb] at ho; exact absurd hw ho.1
        · rw [if_neg hb] at ho; simpa [hb] using ho
    · simp only [GameEngine.casWinner, hw, if_false]
      exact ⟨_, _, rfl, rfl, Ext.refl g, hgok,
        ⟨hz, fun _ => hw, fun h => absurd h (by simp [hpc.1])⟩, by simp [hw]⟩
  · -- announce
    obtain ⟨hsw, hcorr, hwin⟩ := hpc
    have hid : e.s.UserID ≠ 0 := hz hcorr
    by_cases hb : g.announceDo = true
    · have hg1 : g.announce e.s.UserID = g := by simp [GameEngine.announce, hb]
      rw [hg1]
      exact ⟨_, _, rfl, rfl, Ext.refl g, hgok, ⟨hz, by simp [hsw, hcorr, hwin, hb]⟩,
        by simp [hsw]⟩
    · obtain ⟨ha, ho⟩ := hgok
      rw [if_neg hb] at ha
      refine ⟨_, _, rfl, rfl, ?_, ?_, ⟨hz, ?_⟩, ?_⟩
      · simp [Ext, GameEngine.announce, hb]
      · constructor
        · simp [GameEngine.announce, hb, ha, hwin, hid]
        · simpa [GameEngine.announce, hb] using ho
      · simp [GameEngine.announce, hb, hsw, hcorr, hwin]
      · simp [GameEngine.announce, hb, hsw]
  · -- publish
    obtain ⟨hsw, hcorr, hwin, hann⟩ := hpc
    have hid : e.s.UserID ≠ 0 := hz hcorr
    by_cases hb : g.winnerOnce = true
    · have hg1 : g.publish e.s.UserID = .ok g := by simp [GameEngine.publish, hb]
      rw [hg1]
      exact ⟨_, _, rfl, rfl, Ext.refl g, hgok,
        ⟨hz, by simp [hsw, hcorr, hwin, hb, hann, hid]⟩, by simp [hsw]⟩
    · obtain ⟨ha, ho⟩ := hgok
      rw [if_neg hb] at ho
      have hg1 : g.publish e.s.UserID =
          .ok { g with winnerOnce := true,
                       winnerCh := { cap := 1, buf := [e.s.UserID], closed := true,
                                     hist := [.send e.s.UserID, .close] } } := by
        simp [GameEngine.publish, hb, ho, Chan.make, Chan.send, Chan.close]
      rw [hg1]
      refine ⟨_, _, rfl, rfl, ?_, ?_, ⟨hz, ?_⟩, ?_⟩
      · simp [Ext]
      · constructor
        · simpa using ha
        · simp [hwin, hid]
      · simp [hsw, hcorr, hwin, hann, hid]
      · simp [hsw]
  · -- done
    exact ⟨_, _, rfl, rfl, Ext.refl g, hgok, ⟨hz, by simp only [hp]; exact hpc⟩, rfl⟩

theorem step_inv (c : Config) (i : Nat) (hc : Inv c) :
    ∃ c1, step c i = .ok c1 ∧ Inv c1 ∧ Ext c.g c1.g ∧
      c1.evals.map (fun x => x.s) = c.evals.map (fun x => x.s) := by
  unfold step
  cases hi : c.evals[i]? with
  | none => exact ⟨c, rfl, hc, Ext.refl _, rfl⟩
  | some e =>
    obtain ⟨g1, e1, hstep, hs, hx, hg, he, hn⟩ :=
      e.step_spec c.g hc.gok (hc.evok e (List.getElem?_mem hi))
    simp only [hstep]
    exact ⟨_, rfl, hc.set hi hx hg he hn, hx, map_s_set _ _ _ _ hi hs⟩

theorem Ext.trans {a b c : GameEngine} (h1 : Ext a b) (h2 : Ext b c) : Ext a c := by
  obtain ⟨w1, a1, o1⟩ := h1
  obtain ⟨w2, a2, o2⟩ := h2
  refine ⟨fun h => ?_, fun h => a2 (a1 h), fun h => o2 (o1 h)⟩
  have hb : b.winnerID = a.winnerID := w1 h
  rw [← hb]
  exact w2 (hb ▸ h)

theorem run_inv (c : Config) (sched : List Nat) (hc : Inv c) :
    ∃ c1, run c sched = .ok c1 ∧ Inv c1 ∧ Ext c.g c1.g ∧
      c1.evals.map (fun x => x.s) = c.evals.map (fun x => x.s) := by
  induction sched generalizing c with
  | nil => exact ⟨c, rfl, hc, Ext.refl _, rfl⟩
  | cons i rest ih =>
    obtain ⟨c1, h1, hinv1, hext1, hmap1⟩ := step_inv c i hc
    obtain ⟨c2, h2, hinv2, hext2, hmap2⟩ := ih c1 hinv1
    exact ⟨c2, by simp [run, h1, h2], hinv2, hext1.trans hext2, hmap2.trans hmap1⟩

theorem init_inv (buffer : Nat) (subs : List Submission)
    (hnz : ∀ s ∈ subs, s.Correct = true → s.UserID ≠ 0) :
    Inv (Config.init (New buffer) subs) := by
  refine ⟨?_, ?_, ?_⟩
  · simp [GOK, Config.init, New]
  · intro e he
    simp only [Config.init, List.mem_map] at he
    obtain ⟨s, hs, rfl⟩ := he
    exact ⟨hnz s hs, rfl⟩
  · simp [Config.swaps, Config.init, New, List.countP_map, List.countP_eq_zero]

theorem init_map_s (g : GameEngine) (subs : List Submission) :
    (Config.init g subs).evals.map (fun x => x.s) = subs := by
  simp [Config.init, Function.comp_def]

theorem run_append (c : Config) (xs ys : List Nat) :
    run c (xs ++ ys) =
      match run c xs with
      | .error f => .error f
      | .ok c1 => run c1 ys := by
  induction xs generalizing c with
  | nil => simp only [List.nil_append, run]
  | cons x xs ih =>
    simp only [List.cons_append, run]
    cases step c x with
    | error f => rfl
    | ok c1 => exact ih c1

theorem Inv.winner_of_swapped {c : Config} (hc : Inv c) (e : Evaluator) (he : e ∈ c.evals)
    (hs : e.swapped = true) : c.g.Winner = (e.s.UserID, true) := by
  obtain ⟨hz, hpc⟩ := hc.evok e he
  have key : e.s.Correct = true ∧ c.g.winnerID = e.s.UserID := by
    cases hp : e.pc <;> simp only [hp] at hpc
    · simp [hs] at hpc
    · simp [hs] at hpc
    · simp [hs] at hpc
    · simp [hs] at hpc
    · exact ⟨hpc.2.1, hpc.2.2⟩
    · exact ⟨hpc.2.1, hpc.2.2.1⟩
    · exact ⟨(hpc.2 hs).1, (hpc.2 hs).2.1⟩
  simp [GameEngine.Winner, key.2, hz key.1]

theorem Inv.effects_le_one {c : Config} (hc : Inv c) :
    c.g.logged.length ≤ 1 ∧ c.g.winnerCh.sent.length ≤ 1 ∧ c.g.winnerCh.closes ≤ 1 := by
  obtain ⟨ha, ho⟩ := hc.gok
  refine ⟨?_, ?_, ?_⟩
  · split at ha
    · simp [ha.2]
    · simp [ha]
  · split at ho
    · simp [ho.2, Chan.sent]
    · simp [ho, Chan.make, Chan.sent]
  · split at ho
    · simp [ho.2, Chan.closes]
    · simp [ho, Chan.make, Chan.closes]

theorem Inv.unset_of_no_swap {c : Config} (hc : Inv c) (h0 : c.swaps = 0) :
    c.g.Winner = (0, false) ∧ c.g.logged = [] ∧ c.g.winnerCh.hist = [] := by
  have hcount := hc.count
  have hw : c.g.winnerID = 0 := by
    by_contra hne
    simp [hne, h0] at hcount
  obtain ⟨ha, ho⟩ := hc.gok
  refine ⟨by simp [GameEngine.Winner, hw], ?_, ?_⟩
  · split at ha
    · exact absurd hw ha.1
    · exact ha
  · split at ho
    · exact absurd hw ho.1
    · simp [ho, Chan.make]

theorem Inv.finished_spec {c : Config} (hc : Inv c) (hfin : c.finished = true)
    (hex : ∃ e ∈ c.evals, e.s.Correct = true) :
    c.swaps = 1 ∧ ∃ w, c.g.Winner = (w, true) ∧ c.g.logged = [w] ∧
      c.g.winnerCh.hist = [.send w, .close] ∧ c.g.winnerCh.closed = true := by
  have hdone : ∀ e ∈ c.evals, e.pc = .done := by
    simpa [Config.finished] using hfin
  obtain ⟨e, he, hcorr⟩ := hex
  have hwne : c.g.winnerID ≠ 0 := by
    obtain ⟨_, hpc⟩ := hc.evok e he
    simp only [hdone e he] at hpc
    exact hpc.1 hcorr
  have hcount := hc.count
  have hsw : c.swaps = 1 := by simpa [hwne] using hcount
  have hpos : 0 < c.evals.countP (fun e => e.swapped) := by
    simp only [Config.swaps] at hsw; omega
  obtain ⟨e1, he1, hs1⟩ := List.countP_pos_iff.mp hpos
  obtain ⟨_, hpc1⟩ := hc.evok e1 he1
  simp only [hdone e1 he1] at hpc1
  obtain ⟨_, _, hann, honce⟩ := hpc1.2 hs1
  obtain ⟨ha, ho⟩ := hc.gok
  rw [if_pos hann] at ha
  rw [if_pos honce] at ho
  exact ⟨hsw, c.g.winnerID, by simp [GameEngine.Winner, hwne], ha.2, by simp [ho.2],
    by simp [ho.2]⟩

/-! ## The serial schedule is the sequential evaluation loop -/

theorem step_at (g : GameEngine) (pre post : List Evaluator) (e : Evaluator) :
    step { g := g, evals := pre ++ e :: post } pre.length =
      match e.step g with
      | .error f => .error f
      | .ok (g1, e1) => .ok { g := g1, evals := pre ++ e1 :: post } := by
  have hget : (pre ++ e :: post)[pre.length]? = some e := by
    rw [List.getElem?_append_right (Nat.le_refl _)]
    simp
  have hset : ∀ e1, (pre ++ e :: post).set pre.length e1 = pre ++ e1 :: post := by simp
  simp only [step, hget, hset]

theorem run_replicate_at (g : GameEngine) (pre post : List Evaluator) (e : Evaluator)
    (n : Nat) :
    run { g := g, evals := pre ++ e :: post } (List.replicate n pre.length) =
      match run { g := g, evals := [e] } (List.replicate n 0) with
      | .error f => .error f
      | .ok c => .ok { g := c.g, evals := pre ++ c.evals ++ post } := by
  induction n generalizing g e with
  | zero => simp [run]
  | succ n ih =>
    have h0 := step_at g [] [] e
    simp only [List.nil_append, List.length_nil] at h0
    simp only [List.replicate_succ, run, step_at, h0]
    cases e.step g with
    | error f => rfl
    | ok r =>
      obtain ⟨g1, e1⟩ := r
      exact ih g1 e1

theorem step_length (c c1 : Config) (i : Nat) (h : step c i = .ok c1) :
    c1.evals.length = c.evals.length := by
  unfold step at h
  split at h
  · cases h; rfl
  · split at h
    · cases h
    · cases h; simp

theorem run_length (c c1 : Config) (sched : List Nat) (h : run c sched = .ok c1) :
    c1.evals.length = c.evals.length := by
  induction sched generalizing c with
  | nil => cases h; rfl
  | cons i rest ih =>
    simp only [run] at h
    cases hs : step c i with
    | error f => simp [hs] at h
    | ok c2 =>
      simp only [hs] at h
      rw [ih c2 h, step_length c c2 i hs]

theorem run_single (g : GameEngine) (s : Submission) :
    (run (Config.init g [s]) (List.replicate 6 0)).map (fun c => c.g) = eval g s := by
  obtain ⟨id, c⟩ := s
  cases c with
  | false =>
    simp [Config.init, List.replicate, run, step, Evaluator.step, eval, Except.map]
  | true =>
    by_cases hw : g.winnerID = 0
    · by_cases ha : g.announceDo = true <;> by_cases ho : g.winnerOnce = true <;>
      simp [Config.init, List.replicate, run, step, Evaluator.step, eval, Except.map, hw, ha,
        ho, GameEngine.addTotal, GameEngine.addCorrect, GameEngine.casWinner,
        GameEngine.announce, GameEngine.publish]
      all_goals
        cases g.winnerCh.send id with
        | error f => rfl
        | ok c1 =>
          dsimp only
          cases c1.close <;> rfl
    · simp [Config.init, List.replicate, run, step, Evaluator.step, eval, Except.map, hw,
        GameEngine.addTotal, GameEngine.addCorrect]

theorem run_serial_from (g : GameEngine) (pre : List Evaluator) (subs : List Submission) :
    (run { g := g, evals := pre ++ (Config.init g subs).evals }
        ((List.range' pre.length subs.length).flatMap fun i => List.replicate 6 i)).map
      (fun c => c.g) = evalAll g subs := by
  induction subs generalizing g pre with
  | nil => simp [run, evalAll, Except.map]
  | cons s rest ih =>
    have hsingle := run_single g s
    have hloc := run_replicate_at g pre (Config.init g rest).evals
      { s := s, pc := .addTotal, swapped := false } 6
    have hinit : (Config.init g (s :: rest)).evals =
        { s := s, pc := .addTotal, swapped := false } :: (Config.init g rest).evals := rfl
    simp only [List.length_cons, List.range'_succ, List.flatMap_cons, run_append, hinit, hloc,
      evalAll]
    have hc0 : Config.init g [s] =
        { g := g, evals := [{ s := s, pc := .addTotal, swapped := false }] } := rfl
    rw [hc0] at hsingle
    cases hr : run { g := g, evals := [{ s := s, pc := .addTotal, swapped := false }] }
        (List.replicate 6 0) with
    | error f =>
      rw [hr] at hsingle
      simp only [Except.map] at hsingle
      simp [← hsingle, Except.map]
    | ok c =>
      rw [hr] at hsingle
      simp only [Except.map] at hsingle
      have hlen := run_length _ _ _ hr
      simp only [List.length_singleton] at hlen
      obtain ⟨e1, he1⟩ := List.length_eq_one.mp hlen
      simp only [← hsingle, he1]
      have := ih c.g (pre ++ [e1])
      simpa [Config.init] using this

theorem run_serial (g : GameEngine) (subs : List Submission) :
    (run (Config.init g subs) (serial subs.length)).map (fun c => c.g) = evalAll g subs := by
  have := run_serial_from g [] subs
  simpa [serial, List.range_eq_range'] using this

/-! ## The claims -/

/-- C1: for every finite sequence of submissions evaluated in order on an
engine built by `New`, after each processed submission (every initial segment
of the sequence, the empty one included) the snapshot satisfies
`Total = Correct + Incorrect` in `uint64` arithmetic. -/
theorem C1_total_eq_correct_add_incorrect (buffer : Nat) (subs : List Submission) (k : Nat) :
    ∃ g, evalAll (New buffer) (subs.take k) = .ok g ∧
      g.StatsSnapshot.Total < 2 ^ 64 ∧
      g.StatsSnapshot.Total =
        (g.StatsSnapshot.Correct + g.StatsSnapshot.Incorrect) % 2 ^ 64 := by
  refine ⟨reached buffer (subs.take k), evalAll_New buffer _, ?_, ?_⟩
  · exact Nat.mod_lt _ (by decide)
  · show (subs.take k).length % u64 = _
    rw [countP_split (subs.take k)]
    simp [reached, GameEngine.StatsSnapshot, u64]

/-- C2, counterexample: after the single correct submission with identifier 0
the `Correct` counter is 1 and `Winner` reports that no winner was found. -/
theorem C2_counterexample :
    ∃ g, evalAll (New 10) [⟨0, true⟩] = .ok g ∧
      1 ≤ g.StatsSnapshot.Correct ∧ g.Winner = (0, false) :=
  ⟨_, rfl, by decide, by decide⟩

/-- C2, amended: for every finite sequence of submissions in which every
correct submission has a non-zero identifier, evaluated in order on a fresh
engine, a `Correct` counter of at least 1 implies that `Winner` returns
`found = true`. -/
theorem C2_correct_implies_winner (buffer : Nat) (subs : List Submission)
    (hnz : ∀ s ∈ subs, s.Correct = true → s.UserID ≠ 0) :
    ∃ g, evalAll (New buffer) subs = .ok g ∧
      (1 ≤ g.StatsSnapshot.Correct → g.Winner.2 = true) := by
  refine ⟨reached buffer subs, evalAll_New buffer _, ?_⟩
  intro h
  have hpos : 0 < subs.countP (fun s => s.Correct) := by
    rcases Nat.eq_zero_or_pos (subs.countP (fun s => s.Correct)) with h0 | h0
    · simp [reached, GameEngine.StatsSnapshot, h0] at h
    · exact h0
  obtain ⟨s, hs, hc⟩ := List.countP_pos_iff.mp hpos
  obtain ⟨w, hw⟩ := firstWinner_isSome_of_mem subs s hs hc (hnz s hs hc)
  have := (firstWinner_ne_zero subs w hw).2
  simp [reached, GameEngine.Winner, hw, this]

/-- C2, witness: the amended statement at the sequence `{7,false},{-3,true}`. -/
theorem C2_correct_implies_winner_witness :
    ∃ g, evalAll (New 4) [⟨7, false⟩, ⟨-3, true⟩] = .ok g ∧
      (1 ≤ g.StatsSnapshot.Correct → g.Winner.2 = true) :=
  C2_correct_implies_winner 4 [⟨7, false⟩, ⟨-3, true⟩] (by decide)

/-- C3: for a sequence whose identifiers are all non-zero, written as
incorrect submissions `pre`, then a correct submission `f`, then any
submissions `post`, evaluation on a fresh engine succeeds and `Winner`
returns `(f.UserID, true)`, however many correct submissions `post` holds. -/
theorem C3_first_correct_wins (buffer : Nat) (pre : List Submission) (f : Submission)
    (post : List Submission)
    (hpre : ∀ s ∈ pre, s.Correct = false) (hf : f.Correct = true)
    (hnz : ∀ s ∈ pre ++ f :: post, s.UserID ≠ 0) :
    ∃ g, evalAll (New buffer) (pre ++ f :: post) = .ok g ∧ g.Winner = (f.UserID, true) := by
  refine ⟨_, evalAll_New buffer _, ?_⟩
  have hfz : f.UserID ≠ 0 := hnz f (by simp)
  have hw : firstWinner (pre ++ f :: post) = some f :=
    find?_first _ pre f post (fun s hs => by simp [hpre s hs]) (by simp [hf, hfz])
  simp [reached, GameEngine.Winner, hw, hfz]

/-- C3, witness: `{1,false},{2,true},{3,true}` makes user 2 the winner. -/
theorem C3_first_correct_wins_witness :
    ∃ g, evalAll (New 10) ([⟨1, false⟩] ++ ⟨2, true⟩ :: [⟨3, true⟩]) = .ok g ∧
      g.Winner = ((⟨2, true⟩ : Submission).UserID, true) :=
  C3_first_correct_wins 10 [⟨1, false⟩] ⟨2, true⟩ [⟨3, true⟩]
    (by decide) rfl (by decide)

/-- C4: write-once winner. In every engine state in which `Winner` returns
`(w, true)`, evaluating any submission succeeds and leaves `Winner` at
`(w, true)`, and so does evaluating any further sequence of submissions. -/
theorem C4_winner_write_once (g : GameEngine) (w : Int) (h : g.Winner = (w, true)) :
    (∀ s : Submission, ∃ g1, eval g s = .ok g1 ∧ g1.Winner = (w, true)) ∧
    (∀ subs : List Submission, ∃ g1, evalAll g subs = .ok g1 ∧ g1.Winner = (w, true)) := by
  have hne : g.winnerID ≠ 0 := by
    have := congrArg Prod.snd h
    simpa [GameEngine.Winner] using this
  constructor
  · intro s
    obtain ⟨g1, h1, e1⟩ := winner_stable g s hne
    exact ⟨g1, h1, by rw [← h]; simp [GameEngine.Winner, e1]⟩
  · intro subs
    obtain ⟨g1, h1, e1⟩ := winner_stable_all g subs hne
    exact ⟨g1, h1, by rw [← h]; simp [GameEngine.Winner, e1]⟩

/-- C4, witness: an engine whose winner is 9 keeps it through `{4,true}` and
through `{4,true},{0,true},{5,false}`. -/
theorem C4_winner_write_once_witness :
    (∀ s : Submission, ∃ g1, eval { New 3 with winnerID := 9 } s = .ok g1 ∧
      g1.Winner = (9, true)) ∧
    (∀ subs : List Submission, ∃ g1, evalAll { New 3 with winnerID := 9 } subs = .ok g1 ∧
      g1.Winner = (9, true)) :=
  C4_winner_write_once { New 3 with winnerID := 9 } 9 (by decide)

/-- C5: for a sequence shorter than `2 ^ 64` evaluated on a fresh engine the
snapshot has `Total` the number of submissions, `Correct` the number of
correct ones and `Incorrect` the number of incorrect ones; the sequence
`{1,false},{2,true},{3,true}` gives `{3, 2, 1, 2}`, and any sequence made of
one correct and 100 incorrect submissions gives `Total = 101`, `Correct = 1`. -/
theorem C5_counters (buffer : Nat) (subs : List Submission) (hlen : subs.length < 2 ^ 64) :
    ∃ g, evalAll (New buffer) subs = .ok g ∧
      g.StatsSnapshot.Total = subs.length ∧
      g.StatsSnapshot.Correct = subs.countP (fun s => s.Correct) ∧
      g.StatsSnapshot.Incorrect = subs.countP (fun s => !s.Correct) ∧
      (subs = [⟨1, false⟩, ⟨2, true⟩, ⟨3, true⟩] →
        g.StatsSnapshot = { Total := 3, Correct := 2, Incorrect := 1, WinnerID := 2 }) ∧
      (subs.countP (fun s => s.Correct) = 1 → subs.countP (fun s => !s.Correct) = 100 →
        g.StatsSnapshot.Total = 101 ∧ g.StatsSnapshot.Correct = 1) := by
  have hsplit := countP_split subs
  have hl : subs.length % u64 = subs.length := Nat.mod_eq_of_lt hlen
  have hc : subs.countP (fun s => s.Correct) % u64 = subs.countP (fun s => s.Correct) :=
    Nat.mod_eq_of_lt (by unfold u64; omega)
  have hi : subs.countP (fun s => !s.Correct) % u64 = subs.countP (fun s => !s.Correct) :=
    Nat.mod_eq_of_lt (by unfold u64; omega)
  refine ⟨_, evalAll_New buffer _, hl, hc, hi, ?_, ?_⟩
  · rintro rfl
    rfl
  · intro h1 h100
    exact ⟨by rw [show (reached buffer subs).StatsSnapshot.Total = subs.length from hl]; omega,
      hc.trans h1⟩

/-- C5, witness: the scenario `{1,false},{2,true},{3,true}` with capacity 10. -/
theorem C5_counters_witness :
    ∃ g, evalAll (New 10) [⟨1, false⟩, ⟨2, true⟩, ⟨3, true⟩] = .ok g ∧
      g.StatsSnapshot = { Total := 3, Correct := 2, Incorrect := 1, WinnerID := 2 } := by
  obtain ⟨g, hg, _, _, _, hex, _⟩ :=
    C5_counters 10 [⟨1, false⟩, ⟨2, true⟩, ⟨3, true⟩] (by decide)
  exact ⟨g, hg, hex rfl⟩

/-- C6, counterexample: after `{0,true},{5,true}` the only value ever sent on
the winner event channel is 0 while `Winner` returns `(5, true)`. -/
theorem C6_counterexample :
    ∃ g, evalAll (New 10) [⟨0, true⟩, ⟨5, true⟩] = .ok g ∧
      g.WinnerEvents.sent = [0] ∧ g.Winner = (5, true) :=
  ⟨_, rfl, by decide, by decide⟩

/-- C6, amended: for every finite sequence of submissions evaluated on a fresh
engine, evaluation never faults (no send beyond the capacity of 1, no send on
or close of a closed channel), at most one value is ever sent on the winner
event channel and at most one close is performed. With no correct submission
nothing has happened on the channel. Otherwise the history of the channel is
exactly one send of the identifier of the first correct submission followed by
the close, that identifier is what `Winner` returns whenever it is non-zero,
and no later submission changes the channel. When every correct submission has
a non-zero identifier, each value sent equals the identifier returned by
`Winner`. -/
theorem C6_one_shot_winner_event (buffer : Nat) (subs : List Submission) :
    ∃ g, evalAll (New buffer) subs = .ok g ∧
      g.WinnerEvents.cap = 1 ∧
      g.WinnerEvents.sent.length ≤ 1 ∧
      g.WinnerEvents.closes ≤ 1 ∧
      g.WinnerEvents.buf.length ≤ g.WinnerEvents.cap ∧
      (match subs.find? (fun s => s.Correct) with
        | none => g.WinnerEvents.hist = [] ∧ g.WinnerEvents.closed = false
        | some f =>
          g.WinnerEvents.hist = [.send f.UserID, .close] ∧
          g.WinnerEvents.sent = [f.UserID] ∧
          g.WinnerEvents.closed = true ∧
          (f.UserID ≠ 0 → g.Winner = (f.UserID, true)) ∧
          (∀ more : List Submission, ∃ g2, evalAll g more = .ok g2 ∧
            g2.WinnerEvents = g.WinnerEvents)) ∧
      ((∀ s ∈ subs, s.Correct = true → s.UserID ≠ 0) →
        ∀ v ∈ g.WinnerEvents.sent, g.Winner = (v, true)) := by
  have hmain : match subs.find? (fun s => s.Correct) with
      | none => (reached buffer subs).WinnerEvents.hist = [] ∧
          (reached buffer subs).WinnerEvents.closed = false
      | some f =>
        (reached buffer subs).WinnerEvents.hist = [.send f.UserID, .close] ∧
        (reached buffer subs).WinnerEvents.sent = [f.UserID] ∧
        (reached buffer subs).WinnerEvents.closed = true ∧
        (f.UserID ≠ 0 → (reached buffer subs).Winner = (f.UserID, true)) ∧
        (∀ more : List Submission, ∃ g2, evalAll (reached buffer subs) more = .ok g2 ∧
          g2.WinnerEvents = (reached buffer subs).WinnerEvents) := by
    cases hc : firstCorrect subs with
    | none =>
      have hc2 : List.find? (fun s => s.Correct) subs = none := hc
      simp [hc2, reached, GameEngine.WinnerEvents, hc, Chan.make]
    | some f =>
      have hc2 : List.find? (fun s => s.Correct) subs = some f := hc
      have hfc : f.Correct = true := by simpa using List.find?_some hc2
      simp only [hc2]
      refine ⟨by simp [reached, GameEngine.WinnerEvents, hc],
        by simp [reached, GameEngine.WinnerEvents, hc, Chan.sent],
        by simp [reached, GameEngine.WinnerEvents, hc], ?_, ?_⟩
      · intro hfz
        have hw : firstWinner subs = some f := firstWinner_of_firstCorrect subs f hc hfz
        simp [reached, GameEngine.Winner, hw, hfz]
      · intro more
        refine ⟨reached buffer (subs ++ more), ?_, ?_⟩
        · have h := evalAll_append (New buffer) subs more
          rw [evalAll_New, evalAll_New] at h
          exact h.symm
        · simp [reached, GameEngine.WinnerEvents, hc,
            firstCorrect_append_of_some subs more f hc]
  refine ⟨reached buffer subs, evalAll_New buffer _, ?_, ?_, ?_, ?_, hmain, ?_⟩
  · cases hc : firstCorrect subs <;> simp [reached, GameEngine.WinnerEvents, hc, Chan.make]
  · cases hc : firstCorrect subs <;>
      simp [reached, GameEngine.WinnerEvents, hc, Chan.make, Chan.sent]
  · cases hc : firstCorrect subs <;>
      simp [reached, GameEngine.WinnerEvents, hc, Chan.make, Chan.closes]
  · cases hc : firstCorrect subs <;> simp [reached, GameEngine.WinnerEvents, hc, Chan.make]
  · intro hnz v hv
    cases hc : subs.find? (fun s => s.Correct) with
    | none =>
      rw [hc] at hmain
      simp [Chan.sent, hmain.1] at hv
    | some f =>
      rw [hc] at hmain
      simp only at hmain
      obtain ⟨_, hsent, _, hwin, _⟩ := hmain
      rw [hsent] at hv
      obtain rfl : v = f.UserID := by simpa using hv
      exact hwin (hnz f (List.mem_of_find?_eq_some hc) (by simpa using List.find?_some hc))

/-- C9, counterexample: in the state whose `total` and `incorrect` counters
both hold `2 ^ 64 - 1`, evaluating the incorrect submission `{1,false}` leaves
both at 0, which is not the former value plus one. -/
theorem C9_counterexample :
    ∃ g1, eval { New 8 with total := 2 ^ 64 - 1, incorrect := 2 ^ 64 - 1 } ⟨1, false⟩ = .ok g1 ∧
      g1.total = 0 ∧ g1.total ≠ (2 ^ 64 - 1) + 1 ∧
      g1.incorrect = 0 ∧ g1.incorrect ≠ (2 ^ 64 - 1) + 1 :=
  ⟨_, rfl, by decide, by decide, by decide, by decide⟩

/-- C9, amended: for every engine state and every submission with
`Correct = false`, `eval` succeeds and the new state is the old one with
`total` and `incorrect` each increased by 1 in `uint64` arithmetic (wrapping
from `2 ^ 64 - 1` to 0) and every other field (the `correct` counter, the
winner identifier, both once-latches, the channels and the log) unchanged;
the increase is by exactly 1 whenever the counter is below `2 ^ 64 - 1`. -/
theorem C9_incorrect_frame (g : GameEngine) (s : Submission) (h : s.Correct = false) :
    ∃ g1, eval g s = .ok g1 ∧
      g1 = { g with total := (g.total + 1) % 2 ^ 64,
                    incorrect := (g.incorrect + 1) % 2 ^ 64 } ∧
      (g.total < 2 ^ 64 - 1 → g1.total = g.total + 1) ∧
      (g.incorrect < 2 ^ 64 - 1 → g1.incorrect = g.incorrect + 1) ∧
      g1.correct = g.correct ∧ g1.winnerID = g.winnerID ∧
      g1.announceDo = g.announceDo ∧ g1.winnerOnce = g.winnerOnce ∧
      g1.winnerCh = g.winnerCh := by
  refine ⟨g.addTotal.addIncorrect, by simp [eval, h], rfl, ?_, ?_, rfl, rfl, rfl, rfl, rfl⟩
  · intro hlt
    show (g.total + 1) % u64 = g.total + 1
    exact Nat.mod_eq_of_lt (by unfold u64; omega)
  · intro hlt
    show (g.incorrect + 1) % u64 = g.incorrect + 1
    exact Nat.mod_eq_of_lt (by unfold u64; omega)

/-- C9, witness: `{7,false}` evaluated on a fresh engine of capacity 2. -/
theorem C9_incorrect_frame_witness :
    ∃ g1, eval (New 2) ⟨7, false⟩ = .ok g1 ∧
      g1 = { New 2 with total := ((New 2).total + 1) % 2 ^ 64,
                        incorrect := ((New 2).incorrect + 1) % 2 ^ 64 } ∧
      ((New 2).total < 2 ^ 64 - 1 → g1.total = (New 2).total + 1) ∧
      ((New 2).incorrect < 2 ^ 64 - 1 → g1.incorrect = (New 2).incorrect + 1) ∧
      g1.correct = (New 2).correct ∧ g1.winnerID = (New 2).winnerID ∧
      g1.announceDo = (New 2).announceDo ∧ g1.winnerOnce = (New 2).winnerOnce ∧
      g1.winnerCh = (New 2).winnerCh :=
  C9_incorrect_frame (New 2) ⟨7, false⟩ rfl

/-- C10, counterexample: after `{5,false},{5,true}` the winner is 5, which is
also the identifier of the incorrect submission `{5,false}`. -/
theorem C10_counterexample :
    ∃ g, evalAll (New 10) [⟨5, false⟩, ⟨5, true⟩] = .ok g ∧
      g.Winner = (5, true) ∧
      ∃ s ∈ ([⟨5, false⟩, ⟨5, true⟩] : List Submission),
        s.Correct = false ∧ s.UserID = g.Winner.1 :=
  ⟨_, rfl, by decide, ⟨5, false⟩, by decide, rfl, by decide⟩

/-- C10, amended: for every finite sequence of submissions with arbitrary
identifiers evaluated in order on a fresh engine, `Winner` returns
`(id, true)` with `id` the identifier of the first submission that is correct
and has a non-zero identifier, and `(0, false)` when there is none. Every
correct submission, also one with identifier 0, is counted in `Correct`; a
reported winner is never 0 and is always the identifier of a correct
submission of the sequence; it is the identifier of no incorrect submission
whenever no incorrect submission shares its identifier with a correct one. -/
theorem C10_winner_is_first_correct_nonzero (buffer : Nat) (subs : List Submission) :
    ∃ g, evalAll (New buffer) subs = .ok g ∧
      g.Winner =
        (match subs.find? (fun s => s.Correct && decide (s.UserID ≠ 0)) with
          | some w => (w.UserID, true)
          | none => (0, false)) ∧
      g.StatsSnapshot.Correct = subs.countP (fun s => s.Correct) % 2 ^ 64 ∧
      (g.Winner.2 = true →
        g.Winner.1 ≠ 0 ∧ ∃ s ∈ subs, s.Correct = true ∧ s.UserID = g.Winner.1) ∧
      ((∀ s ∈ subs, s.Correct = true → s.UserID = 0) → g.Winner = (0, false)) ∧
      ((∀ s ∈ subs, s.Correct = false → ∀ t ∈ subs, t.Correct = true →
          s.UserID ≠ t.UserID) →
        g.Winner.2 = true → ∀ s ∈ subs, s.Correct = false → s.UserID ≠ g.Winner.1) := by
  have hwin : (reached buffer subs).Winner =
      (match subs.find? (fun s => s.Correct && decide (s.UserID ≠ 0)) with
        | some w => (w.UserID, true)
        | none => (0, false)) := by
    cases hw : firstWinner subs with
    | none =>
      have hw2 : subs.find? (fun s => s.Correct && decide (s.UserID ≠ 0)) = none := hw
      rw [hw2]
      simp [reached, GameEngine.Winner, hw]
    | some w =>
      have hw2 : subs.find? (fun s => s.Correct && decide (s.UserID ≠ 0)) = some w := hw
      rw [hw2]
      simp [reached, GameEngine.Winner, hw, (firstWinner_ne_zero subs w hw).2]
  have hmem : (reached buffer subs).Winner.2 = true →
      (reached buffer subs).Winner.1 ≠ 0 ∧
        ∃ s ∈ subs, s.Correct = true ∧ s.UserID = (reached buffer subs).Winner.1 := by
    intro hfound
    cases hw : firstWinner subs with
    | none => simp [reached, GameEngine.Winner, hw] at hfound
    | some w =>
      have hwz := firstWinner_ne_zero subs w hw
      have hid : (reached buffer subs).Winner.1 = w.UserID := by
        simp [reached, GameEngine.Winner, hw]
      rw [hid]
      exact ⟨hwz.2, w, List.mem_of_find?_eq_some hw, hwz.1, rfl⟩
  refine ⟨reached buffer subs, evalAll_New buffer _, hwin, rfl, hmem, ?_, ?_⟩
  · intro hzero
    cases hw : firstWinner subs with
    | none => simp [reached, GameEngine.Winner, hw]
    | some w =>
      have hwz := firstWinner_ne_zero subs w hw
      exact absurd (hzero w (List.mem_of_find?_eq_some hw) hwz.1) hwz.2
  · intro hdis hfound s hs hsc
    obtain ⟨_, t, ht, htc, hte⟩ := hmem hfound
    rw [← hte]
    exact hdis s hs hsc t ht htc

/-- C8, counterexample: with the submissions `{0,true}` and `{5,true}` and the
schedule that runs the first evaluator to completion and then the second, the
`CompareAndSwap` of both evaluators succeeds; the log announces user 0 while
`Winner` returns `(5, true)`. -/
theorem C8_counterexample :
    ∃ c, run (Config.init (New 10) [⟨0, true⟩, ⟨5, true⟩]) (serial 2) = .ok c ∧
      c.swaps = 2 ∧ c.g.logged = [0] ∧ c.g.WinnerEvents.sent = [0] ∧
      c.g.Winner = (5, true) :=
  ⟨_, rfl, by decide, by decide, by decide, by decide⟩

/-- C8, amended: for any submissions in which every correct one has a non-zero
identifier, evaluated by one evaluator each under any interleaving of their
atomic operations on a fresh engine: no operation faults; the
`CompareAndSwap` has succeeded for at most one evaluator; the log line and the
channel send and close have each run at most once; `Winner` returns the
identifier of the evaluator whose swap succeeded, and nothing is declared,
logged or sent while no swap has succeeded; a declared winner stays through
every continuation of the schedule; and once all evaluators have returned and
some submission is correct, exactly one swap has succeeded and the log line
and the channel send and close have run exactly once, for the winner. -/
theorem C8_exactly_one_winner (buffer : Nat) (subs : List Submission) (sched : List Nat)
    (hnz : ∀ s ∈ subs, s.Correct = true → s.UserID ≠ 0) :
    ∃ c, run (Config.init (New buffer) subs) sched = .ok c ∧
      c.evals.map (fun e => e.s) = subs ∧
      c.swaps ≤ 1 ∧
      c.g.logged.length ≤ 1 ∧
      c.g.WinnerEvents.sent.length ≤ 1 ∧
      c.g.WinnerEvents.closes ≤ 1 ∧
      (∀ e ∈ c.evals, e.swapped = true → c.g.Winner = (e.s.UserID, true)) ∧
      (c.swaps = 0 →
        c.g.Winner = (0, false) ∧ c.g.logged = [] ∧ c.g.WinnerEvents.hist = []) ∧
      (∀ more : List Nat, ∃ c2, run c more = .ok c2 ∧
        (c.g.Winner.2 = true → c2.g.Winner = c.g.Winner)) ∧
      (c.finished = true → (∃ s ∈ subs, s.Correct = true) →
        c.swaps = 1 ∧
        ∃ w, c.g.Winner = (w, true) ∧ c.g.logged = [w] ∧
          c.g.WinnerEvents.hist = [.send w, .close] ∧
          c.g.WinnerEvents.closed = true) := by
  obtain ⟨c, hrun, hinv, _, hmap⟩ :=
    run_inv (Config.init (New buffer) subs) sched (init_inv buffer subs hnz)
  rw [init_map_s] at hmap
  have heff := hinv.effects_le_one
  refine ⟨c, hrun, hmap, ?_, heff.1, heff.2.1, heff.2.2, hinv.winner_of_swapped,
    hinv.unset_of_no_swap, ?_, ?_⟩
  · have := hinv.count
    split at this <;> omega
  · intro more
    obtain ⟨c2, hrun2, _, hext, _⟩ := run_inv c more hinv
    refine ⟨c2, hrun2, fun hfound => ?_⟩
    have hne : c.g.winnerID ≠ 0 := by simpa [GameEngine.Winner] using hfound
    simp [GameEngine.Winner, hext.1 hne]
  · intro hfin hex
    obtain ⟨s, hs, hcorr⟩ := hex
    rw [← hmap] at hs
    obtain ⟨e, he, rfl⟩ := List.mem_map.mp hs
    exact hinv.finished_spec hfin ⟨e, he, hcorr⟩

/-- C8, witness: the submissions `{1,false},{2,true},{3,true}` under a schedule
in which both correct evaluators load the unset winner before either swaps;
the evaluator of `{3,true}` swaps first and user 3 is the one winner. -/
theorem C8_exactly_one_winner_witness :
    (∃ c, run (Config.init (New 10) [⟨1, false⟩, ⟨2, true⟩, ⟨3, true⟩])
        [1, 1, 1, 2, 2, 2, 2, 1, 0, 2, 2, 0] = .ok c ∧
      c.swaps ≤ 1 ∧
      (c.finished = true →
        c.swaps = 1 ∧
        ∃ w, c.g.Winner = (w, true) ∧ c.g.logged = [w] ∧
          c.g.WinnerEvents.hist = [.send w, .close] ∧
          c.g.WinnerEvents.closed = true)) ∧
    (run (Config.init (New 10) [⟨1, false⟩, ⟨2, true⟩, ⟨3, true⟩])
        [1, 1, 1, 2, 2, 2, 2, 1, 0, 2, 2, 0]).map
      (fun c => (c.finished, c.swaps, c.g.Winner, c.g.logged)) =
      .ok (true, 1, (3, true), [3]) := by
  obtain ⟨c, hrun, _, hle, _, _, _, _, _, _, hfin⟩ :=
    C8_exactly_one_winner 10 [⟨1, false⟩, ⟨2, true⟩, ⟨3, true⟩]
      [1, 1, 1, 2, 2, 2, 2, 1, 0, 2, 2, 0] (by decide)
  exact ⟨⟨c, hrun, hle, fun h => hfin h ⟨⟨2, true⟩, by decide, rfl⟩⟩, by decide⟩

end Engine

namespace ApiServer

/-- C7: `validate` returns an error exactly when the identifier is `≤ 0` and
nil otherwise; every submission `handleSubmit` forwards to the engine has a
strictly positive, hence non-zero, identifier and carries the identifier and
the correctness flag of the decoded request unchanged. -/
theorem C7_validate_rejects_nonpositive (req : submitReq) (r : Request) :
    ((validate req).isSome = true ↔ req.UserID ≤ 0) ∧
    (validate req = none ↔ 0 < req.UserID) ∧
    (∀ s, (handleSubmit r).submitted = some s →
      0 < s.UserID ∧ s.UserID ≠ 0 ∧
      ∃ q, r.decoded = some q ∧ validate q = none ∧
        s.UserID = q.UserID ∧ s.Correct = q.Correct) := by
  refine ⟨?_, ?_, ?_⟩
  · unfold validate; split <;> simp [*]
  · unfold validate; split <;> simp [*]; omega
  · intro s hs
    unfold handleSubmit at hs
    split at hs
    · simp at hs
    · split at hs
      · simp at hs
      · rename_i q hq
        split at hs
        · simp at hs
        · rename_i hv
          have hpos : 0 < q.UserID := by
            unfold validate at hv
            split at hv
            · simp at hv
            · omega
          simp only [Option.some.injEq] at hs
          subst hs
          exact ⟨hpos, by simp only; omega, q, hq, hv, rfl, rfl⟩

end ApiServer
